import Mathlib

set_option maxRecDepth 100000

unseal Rat.add Rat.mul Rat.inv Rat.sub Rat.ofScientific

/-!
Verification of the Mamdani fuzzy-inference spec against the fuze-prod
repository.

The repository consists of three small applications (src/microwave/oven.py,
src/main.py, src/lab2/main.py) that configure and call the scikit-fuzzy
control engine.  The engine itself (membership evaluation, rule firing,
min-implication clipping, max aggregation, centroid defuzzification) is a
library dependency and is not shipped under src/, so it is modelled here
from the spec (sections 4.1-4.4); every definition that does so says
"Modelled from the spec" in its doc comment.  The concrete configurations
(domains, membership-function control points, rule lists, the input
validation and rounding of `calculate_cooking_time`) are translated
directly from the source files.

All arithmetic is over ℚ: the programs use double precision, and the spec
declares the sampling step / numeric precision a tunable rather than a
correctness requirement, so exact rational arithmetic is the faithful
idealisation of the quantities the spec reasons about.
-/

namespace Fuze

/-- Modelled from the spec (and mirroring skfuzzy.trimf, which the source
configures but does not ship): triangular membership function with control
points `a ≤ b ≤ c`; 0 outside `[a,c]`, linear rise on `(a,b)`, linear fall
on `(b,c)` and value 1 at `b` (also for degenerate shapes with `a = b` or
`b = c`). -/
def trimf (a b c x : ℚ) : ℚ :=
  if x = b then 1
  else if a < x ∧ x < b then (x - a) / (b - a)
  else if b < x ∧ x < c then (c - x) / (c - b)
  else 0

/-- Modelled from the spec (mirroring skfuzzy.trapmf): trapezoidal
membership function with control points `a ≤ b ≤ c ≤ d`; 0 outside
`[a,d]`, linear rise on `(a,b)`, flat 1 on `[b,c]`, linear fall on
`(c,d)`. -/
def trapmf (a b c d x : ℚ) : ℚ :=
  if x < a then 0
  else if d < x then 0
  else if x ≤ b then trimf a b b x
  else if c ≤ x then trimf c c d x
  else 1

/-- A membership function is one of the two shapes used by the repository. -/
inductive MF where
  | tri (a b c : ℚ)
  | trap (a b c d : ℚ)
deriving DecidableEq

/-- Evaluate a membership function at a crisp value. -/
def MF.eval : MF → ℚ → ℚ
  | .tri a b c, x => trimf a b c x
  | .trap a b c d, x => trapmf a b c d x

/-- A linguistic variable: name, discretised domain samples, named terms. -/
structure Fvar where
  name : String
  samples : List ℚ
  terms : List (String × MF)

/-- Modelled from the spec: antecedent expression tree; leaves reference a
variable's term, inner nodes combine by fuzzy AND (min) / OR (max). -/
inductive AExpr where
  | leaf (var term : String)
  | and_ (l r : AExpr)
  | or_ (l r : AExpr)
deriving DecidableEq

/-- The antecedent variables referenced by an expression. -/
def AExpr.vars : AExpr → List String
  | .leaf v _ => [v]
  | .and_ l r => l.vars ++ r.vars
  | .or_ l r => l.vars ++ r.vars

/-- A rule: antecedent expression, consequent (variable, term), weight
(the source never passes a weight, so every configured rule carries the
spec default 1). -/
structure Rule where
  ante : AExpr
  consVar : String
  consTerm : String
  weight : ℚ
deriving DecidableEq

/-- A rule base: antecedent variables, one consequent variable (each
program in the repository has exactly one output variable), rules. -/
structure RuleBase where
  antecedents : List Fvar
  consequent : Fvar
  rules : List Rule

/-- Per-call crisp input mapping (the spec's EvaluationContext). -/
def Ctx : Type := List (String × ℚ)

/-- Look up the crisp input stored for a variable (first binding wins). -/
def lookup : Ctx → String → Option ℚ
  | [], _ => none
  | (k, x) :: rest, v => if k = v then some x else lookup rest v

/-- Find a term's membership function inside a list of variables. -/
def findTerm (vars : List Fvar) (vname tname : String) : Option MF :=
  match vars.find? (fun fv => fv.name == vname) with
  | some fv => (fv.terms.find? (fun p => p.1 == tname)).map Prod.snd
  | none => none

/-- Modelled from the spec (section 4.3): recursive antecedent evaluation —
a leaf fuzzifies the referenced variable's crisp input and returns the
named term's degree, an AND node takes the minimum of its children and an
OR node the maximum. -/
def evalAnte (avars : List Fvar) (ctx : Ctx) : AExpr → ℚ
  | .leaf v t =>
      match lookup ctx v, findTerm avars v t with
      | some x, some mf => mf.eval x
      | _, _ => 0
  | .and_ l r => min (evalAnte avars ctx l) (evalAnte avars ctx r)
  | .or_ l r => max (evalAnte avars ctx l) (evalAnte avars ctx r)

/-- Modelled from the spec: firing strength of a rule — antecedent degree
multiplied by the rule's weight. -/
def fireStrength (rb : RuleBase) (ctx : Ctx) (r : Rule) : ℚ :=
  r.weight * evalAnte rb.antecedents ctx r.ante

/-- Membership degree of a rule's consequent term at an output sample. -/
def consEval (rb : RuleBase) (r : Rule) (y : ℚ) : ℚ :=
  match findTerm [rb.consequent] r.consVar r.consTerm with
  | some mf => mf.eval y
  | none => 0

/-- Modelled from the spec (step 3): clipped output curve of one rule,
`min(w_r, consequent_term.evaluate(y))` at every output sample. -/
def clipped (rb : RuleBase) (ctx : Ctx) (r : Rule) : List ℚ :=
  rb.consequent.samples.map (fun y => min (fireStrength rb ctx r) (consEval rb r y))

/-- Modelled from the spec (step 4): pointwise maximum of a list of
curves, starting from the identically-zero curve. -/
def aggregate (n : ℕ) (curves : List (List ℚ)) : List ℚ :=
  curves.foldr (fun c acc => List.zipWith max c acc) (List.replicate n 0)

/-- The aggregated output membership curve of an inference call. -/
def aggCurve (rb : RuleBase) (ctx : Ctx) : List ℚ :=
  aggregate rb.consequent.samples.length (rb.rules.map (clipped rb ctx))

/-- Modelled from the spec (step 1): every antecedent variable referenced
by the rule base must have a crisp value in the context. -/
def validate (rb : RuleBase) (ctx : Ctx) : Bool :=
  rb.rules.all (fun r => r.ante.vars.all (fun v => (lookup ctx v).isSome))

/-- Modelled from the spec (step 5): discrete centroid over the output
samples. -/
def defuzz (samples curve : List ℚ) : ℚ :=
  (List.zipWith (fun y m => y * m) samples curve).sum / curve.sum

/-- The spec's error taxonomy for a single inference call. -/
inductive FuzzErr where
  | missingInput
  | noRuleFired
deriving DecidableEq

/-- Modelled from the spec (section 4.4): one inference call — validate
inputs first (MissingInputError before any aggregation), then fire rules,
clip, aggregate; if the aggregated curve is identically zero fail with
NoRuleFiredError, otherwise defuzzify by discrete centroid. -/
def infer (rb : RuleBase) (ctx : Ctx) : Except FuzzErr ℚ :=
  if validate rb ctx then
    let curve := aggCurve rb ctx
    if curve.all (fun q => decide (q = 0)) then .error .noRuleFired
    else .ok (defuzz rb.consequent.samples curve)
  else .error .missingInput

/-- Evenly spaced samples `lo, lo+1, …` as built by `np.arange(lo, hi+1, 1)`. -/
def mkSamples (lo : ℚ) (n : ℕ) : List ℚ :=
  (List.range n).map (fun i => lo + (i : ℚ))

/-- Translated from src/microwave/oven.py: temperature antecedent on
`[-18, 70]` with terms frozen / normal / hot. -/
def temperatureVar : Fvar :=
  ⟨"temperature", mkSamples (-18) 89,
    [("frozen", .trap (-18) (-18) (-10) 0),
     ("normal", .tri (-5) 22 30),
     ("hot", .trap 24 50 70 70)]⟩

/-- Translated from src/microwave/oven.py: weight antecedent on `[0, 1500]`
with terms light / medium / heavy. -/
def weightVar : Fvar :=
  ⟨"weight", mkSamples 0 1501,
    [("light", .trap 0 0 200 400),
     ("medium", .tri 300 500 700),
     ("heavy", .trap 600 1000 1500 1500)]⟩

/-- Translated from src/microwave/oven.py: cooking_time consequent on
`[0, 60]`. -/
def cookingTimeVar : Fvar :=
  ⟨"cooking_time", mkSamples 0 61,
    [("very_short", .tri 0 5 10),
     ("short", .tri 4 10 16),
     ("normal", .tri 12 20 30),
     ("long", .tri 25 40 55),
     ("very_long", .trap 40 60 60 60)]⟩

/-- Translated from src/microwave/oven.py: the seven rules of
`setup_fuzzy_system`. -/
def microwaveRules : List Rule :=
  [⟨.leaf "temperature" "frozen", "cooking_time", "very_long", 1⟩,
   ⟨.and_ (.leaf "temperature" "normal") (.leaf "weight" "light"),
      "cooking_time", "short", 1⟩,
   ⟨.and_ (.leaf "temperature" "normal") (.leaf "weight" "medium"),
      "cooking_time", "normal", 1⟩,
   ⟨.and_ (.leaf "temperature" "normal") (.leaf "weight" "heavy"),
      "cooking_time", "long", 1⟩,
   ⟨.and_ (.leaf "temperature" "hot") (.leaf "weight" "light"),
      "cooking_time", "very_short", 1⟩,
   ⟨.and_ (.leaf "temperature" "hot") (.leaf "weight" "medium"),
      "cooking_time", "short", 1⟩,
   ⟨.and_ (.leaf "temperature" "hot") (.leaf "weight" "heavy"),
      "cooking_time", "normal", 1⟩]

/-- The microwave oven rule base of src/microwave/oven.py. -/
def microwaveRB : RuleBase :=
  ⟨[temperatureVar, weightVar], cookingTimeVar, microwaveRules⟩

/-- The simulation object of oven.py: it stores the crisp inputs assigned
through `self.cooking_simulation.input[...]` between calls. -/
structure SimState where
  inputs : Ctx

/-- Assign one crisp input on the simulation (later bindings shadow
earlier ones, as dictionary assignment does). -/
def setInput (s : SimState) (v : String) (x : ℚ) : SimState :=
  ⟨(v, x) :: s.inputs⟩

/-- Errors observable from `calculate_cooking_time`. -/
inductive OvenErr where
  | valueError
  | inferError (e : FuzzErr)
deriving DecidableEq

/-- `round(x, 2)` of oven.py: round to two decimal places, ties to even
(Python's rounding mode). -/
def round2 (x : ℚ) : ℚ :=
  let y := 100 * x
  let n : ℤ := y.floor
  let f : ℚ := y - (n : ℚ)
  let r : ℤ :=
    if 1 / 2 < f then n + 1
    else if f < 1 / 2 then n
    else if n % 2 = 0 then n else n + 1
  (r : ℚ) / 100

/-- Translated from src/microwave/oven.py `calculate_cooking_time`: range
checks first (ValueError), then the crisp inputs are assigned on the
stored simulation, `compute()` runs the inference, and the defuzzified
output is rounded to 2 decimals. -/
def calculate_cooking_time (s : SimState) (temp w : ℚ) :
    Except OvenErr (ℚ × SimState) :=
  if ¬(-18 ≤ temp ∧ temp ≤ 70) then .error .valueError
  else if ¬(0 ≤ w ∧ w ≤ 1500) then .error .valueError
  else
    let s1 := setInput (setInput s "temperature" temp) "weight" w
    match infer microwaveRB s1.inputs with
    | .ok out => .ok (round2 out, s1)
    | .error e => .error (.inferError e)

/-! ### List helper lemmas for the aggregation and defuzzification steps -/

/-- Every element of a list of degrees is dominated by its max-fold. -/
theorem mem_le_foldr_max {x : ℚ} : ∀ {l : List ℚ}, x ∈ l → x ≤ l.foldr max 0
  | a :: t, h => by
    rcases List.mem_cons.1 h with h | h
    · subst h; exact le_max_left _ _
    · exact le_trans (mem_le_foldr_max h) (le_max_right _ _)

/-- `getD` through `map`. -/
theorem getD_map (f : ℚ → ℚ) :
    ∀ (l : List ℚ) (i : ℕ), i < l.length → (l.map f).getD i 0 = f (l.getD i 0)
  | _ :: _, 0, _ => rfl
  | _ :: t, i + 1, h => getD_map f t i (by simpa using h)
  | [], i, h => absurd h (by simp)

/-- `getD` through `zipWith max`. -/
theorem getD_zipWith_max :
    ∀ (l₁ l₂ : List ℚ) (i : ℕ), i < l₁.length → i < l₂.length →
      (List.zipWith max l₁ l₂).getD i 0 = max (l₁.getD i 0) (l₂.getD i 0)
  | _ :: _, _ :: _, 0, _, _ => rfl
  | _ :: t₁, _ :: t₂, i + 1, h₁, h₂ =>
      getD_zipWith_max t₁ t₂ i (by simpa using h₁) (by simpa using h₂)
  | [], _, i, h, _ => absurd h (by simp)
  | _ :: _, [], i, _, h => absurd h (by simp)

/-- `getD` of `replicate 0`. -/
theorem getD_replicate_zero : ∀ (n i : ℕ), (List.replicate n (0 : ℚ)).getD i 0 = 0
  | 0, _ => by simp
  | _ + 1, 0 => rfl
  | n + 1, i + 1 => getD_replicate_zero n i

/-- Aggregation of curves of common length `n` has length `n`. -/
theorem length_aggregate :
    ∀ (curves : List (List ℚ)) (n : ℕ), (∀ c ∈ curves, c.length = n) →
      (aggregate n curves).length = n
  | [], n, _ => by simp [aggregate]
  | c :: cs, n, h => by
    have ih := length_aggregate cs n (fun x hx => h x (List.mem_cons_of_mem _ hx))
    simp only [aggregate, List.foldr_cons] at ih ⊢
    rw [List.length_zipWith, ih, h c (List.mem_cons_self _ _), min_self]

/-- Pointwise description of curve aggregation: sample `i` of the
aggregate is the max-fold of sample `i` of each curve. -/
theorem aggregate_getD :
    ∀ (curves : List (List ℚ)) (n i : ℕ), i < n → (∀ c ∈ curves, c.length = n) →
      (aggregate n curves).getD i 0 = (curves.map (fun c => c.getD i 0)).foldr max 0
  | [], n, i, _, _ => by simp [aggregate, getD_replicate_zero]
  | c :: cs, n, i, hi, h => by
    have hlen := length_aggregate cs n (fun x hx => h x (List.mem_cons_of_mem _ hx))
    have ih := aggregate_getD cs n i hi (fun x hx => h x (List.mem_cons_of_mem _ hx))
    simp only [aggregate, List.foldr_cons] at ih hlen ⊢
    rw [getD_zipWith_max _ _ i (by rw [h c (List.mem_cons_self _ _)]; exact hi)
        (by rw [hlen]; exact hi), ih]
    simp

/-- Each clipped curve spans the whole output domain. -/
theorem length_clipped (rb : RuleBase) (ctx : Ctx) (r : Rule) :
    (clipped rb ctx r).length = rb.consequent.samples.length := by
  simp [clipped]

/-- The aggregated curve spans the whole output domain. -/
theorem length_aggCurve (rb : RuleBase) (ctx : Ctx) :
    (aggCurve rb ctx).length = rb.consequent.samples.length := by
  refine length_aggregate _ _ ?_
  intro c hc
  rcases List.mem_map.1 hc with ⟨r, _, rfl⟩
  exact length_clipped rb ctx r

/-- Pointwise description of the aggregated output curve: at output sample
`i` it is the max over rules of the firing strength clipped against the
consequent term's degree. -/
theorem aggCurve_getD (rb : RuleBase) (ctx : Ctx) (i : ℕ)
    (hi : i < rb.consequent.samples.length) :
    (aggCurve rb ctx).getD i 0 =
      (rb.rules.map (fun r =>
        min (fireStrength rb ctx r) (consEval rb r (rb.consequent.samples.getD i 0)))).foldr
        max 0 := by
  rw [aggCurve, aggregate_getD _ _ i hi
    (by intro c hc; rcases List.mem_map.1 hc with ⟨r, _, rfl⟩; exact length_clipped rb ctx r)]
  rw [List.map_map]
  congr 1
  refine List.map_congr_left ?_
  intro r _
  simp only [Function.comp]
  exact getD_map _ _ i hi

/-- A list's sum as a `Finset.range` sum of its `getD` entries. -/
theorem sum_eq_sum_getD :
    ∀ l : List ℚ, l.sum = ∑ i in Finset.range l.length, l.getD i 0
  | [] => by simp
  | a :: t => by
    rw [List.sum_cons, sum_eq_sum_getD t, List.length_cons, Finset.sum_range_succ']
    simp only [List.getD_cons_succ, List.getD_cons_zero]
    exact add_comm _ _

/-- The sum of the pointwise products of two equally long lists as a
`Finset.range` sum. -/
theorem zipWith_mul_sum :
    ∀ (l₁ l₂ : List ℚ), l₁.length = l₂.length →
      (List.zipWith (fun y m => y * m) l₁ l₂).sum =
        ∑ i in Finset.range l₁.length, l₁.getD i 0 * l₂.getD i 0
  | [], [], _ => by simp
  | [], _ :: _, h => by simp at h
  | _ :: _, [], h => by simp at h
  | a :: t₁, b :: t₂, h => by
    rw [List.zipWith_cons_cons, List.sum_cons, zipWith_mul_sum t₁ t₂ (by simpa using h),
      List.length_cons, Finset.sum_range_succ']
    simp only [List.getD_cons_succ, List.getD_cons_zero]
    exact add_comm _ _

/-! ### Claims C5, C4, C2, C3 -/

/-- C5: for every rule base, input mapping, and output sample point, the
aggregated output curve satisfies
`agg(y_i) = max over rules r of min(w_r, consequent_term_r.evaluate(y_i))`
— Mamdani min-implication clipping followed by pointwise-maximum
aggregation.  (Rules with firing strength 0 contribute `min(0, ·) ≤ 0` and
therefore never affect the fold, so maximising over all rules coincides
with maximising over the fired ones, as the spec's optimisation note
says.) -/
theorem c5_clip_then_max_aggregation (rb : RuleBase) (ctx : Ctx) (i : ℕ)
    (hi : i < rb.consequent.samples.length) :
    (aggCurve rb ctx).getD i 0 =
      (rb.rules.map (fun r =>
        min (fireStrength rb ctx r)
          (consEval rb r (rb.consequent.samples.getD i 0)))).foldr max 0 :=
  aggCurve_getD rb ctx i hi

/-- Witness for C5 at the microwave configuration, inputs temperature
`-18`, weight `500`, output sample index 10. -/
theorem c5_clip_then_max_aggregation_witness :
    10 < microwaveRB.consequent.samples.length ∧
      (aggCurve microwaveRB [("temperature", -18), ("weight", 500)]).getD 10 0 =
        (microwaveRB.rules.map (fun r =>
          min (fireStrength microwaveRB [("temperature", -18), ("weight", 500)] r)
            (consEval microwaveRB r
              (microwaveRB.consequent.samples.getD 10 0)))).foldr max 0 :=
  ⟨by decide, c5_clip_then_max_aggregation microwaveRB _ 10 (by decide)⟩

/-- C4: whenever inference succeeds, the crisp output equals the discrete
centroid `Σ(y_i · agg(y_i)) / Σ(agg(y_i))` taken over all sample points of
the consequent variable's domain. -/
theorem c4_defuzzification_is_discrete_centroid (rb : RuleBase) (ctx : Ctx) (v : ℚ)
    (h : infer rb ctx = .ok v) :
    v = (∑ i in Finset.range rb.consequent.samples.length,
          rb.consequent.samples.getD i 0 * (aggCurve rb ctx).getD i 0) /
        (∑ i in Finset.range rb.consequent.samples.length,
          (aggCurve rb ctx).getD i 0) := by
  by_cases hv : validate rb ctx = true
  · by_cases hz : (aggCurve rb ctx).all (fun q => decide (q = 0)) = true
    · simp [infer, hv, hz] at h
    · simp only [infer, hv, if_true, hz, if_false, Bool.false_eq_true] at h
      have hd : v = defuzz rb.consequent.samples (aggCurve rb ctx) := by
        injection h with h2
        exact h2.symm
      rw [hd, defuzz, zipWith_mul_sum _ _ (length_aggCurve rb ctx).symm,
        sum_eq_sum_getD (aggCurve rb ctx), length_aggCurve rb ctx]
  · simp [infer, hv] at h

/-- Witness for C4 at the microwave configuration with inputs temperature
`-18`, weight `500`, where inference succeeds with output `161/3`. -/
theorem c4_defuzzification_is_discrete_centroid_witness :
    infer microwaveRB [("temperature", -18), ("weight", 500)] = .ok (161 / 3) ∧
      (161 / 3 : ℚ) =
        (∑ i in Finset.range microwaveRB.consequent.samples.length,
          microwaveRB.consequent.samples.getD i 0 *
            (aggCurve microwaveRB [("temperature", -18), ("weight", 500)]).getD i 0) /
        (∑ i in Finset.range microwaveRB.consequent.samples.length,
          (aggCurve microwaveRB [("temperature", -18), ("weight", 500)]).getD i 0) :=
  ⟨by rfl, c4_defuzzification_is_discrete_centroid microwaveRB _ _ (by rfl)⟩

/-- C2: if the inputs validate but the aggregated output curve is
identically zero (no rule fired with nonzero strength), inference fails
with the typed NoRuleFiredError and never substitutes a fallback crisp
output. -/
theorem c2_no_rule_fired_is_typed_failure (rb : RuleBase) (ctx : Ctx)
    (hv : validate rb ctx = true)
    (hz : (aggCurve rb ctx).all (fun q => decide (q = 0)) = true) :
    infer rb ctx = .error .noRuleFired ∧ ∀ v : ℚ, infer rb ctx ≠ .ok v := by
  have he : infer rb ctx = .error .noRuleFired := by simp [infer, hv, hz]
  exact ⟨he, fun v hcontra => by rw [he] at hcontra; exact Except.noConfusion hcontra⟩

/-- Witness for C2: with the microwave rule base and crisp inputs far
outside every membership support (temperature 200, weight 2000) no rule
fires and inference reports NoRuleFiredError. -/
theorem c2_no_rule_fired_is_typed_failure_witness :
    validate microwaveRB [("temperature", 200), ("weight", 2000)] = true ∧
      (aggCurve microwaveRB [("temperature", 200), ("weight", 2000)]).all
        (fun q => decide (q = 0)) = true ∧
      infer microwaveRB [("temperature", 200), ("weight", 2000)] = .error .noRuleFired :=
  ⟨by rfl, by rfl,
    (c2_no_rule_fired_is_typed_failure microwaveRB _ (by rfl) (by rfl)).1⟩

/-- C3: if the input mapping omits a value for some antecedent variable
referenced by the rule base, the whole inference call fails with
MissingInputError; the check is the first step of `infer`, before any
clipping or aggregation, and no numeric output is produced. -/
theorem c3_missing_input_fails_whole_call (rb : RuleBase) (ctx : Ctx)
    (h : ∃ r ∈ rb.rules, ∃ v ∈ r.ante.vars, lookup ctx v = none) :
    infer rb ctx = .error .missingInput := by
  have hv : validate rb ctx = false := by
    rcases h with ⟨r, hr, v, hvv, hnone⟩
    refine List.all_eq_false.2 ⟨r, hr, ?_⟩
    have : r.ante.vars.all (fun v => (lookup ctx v).isSome) = false :=
      List.all_eq_false.2 ⟨v, hvv, by simp [hnone]⟩
    simp [this]
  simp [infer, hv]

/-- Witness for C3: omitting `weight` from the microwave inputs fails with
MissingInputError. -/
theorem c3_missing_input_fails_whole_call_witness :
    (∃ r ∈ microwaveRB.rules, ∃ v ∈ r.ante.vars,
        lookup [("temperature", 22)] v = none) ∧
      infer microwaveRB [("temperature", 22)] = .error .missingInput := by
  have h : ∃ r ∈ microwaveRB.rules, ∃ v ∈ r.ante.vars,
      lookup [("temperature", 22)] v = none :=
    ⟨⟨.and_ (.leaf "temperature" "normal") (.leaf "weight" "light"),
        "cooking_time", "short", 1⟩, by decide, "weight", by decide, by rfl⟩
  exact ⟨h, c3_missing_input_fails_whole_call microwaveRB _ h⟩

/-! ### Claims C6 and C7 -/

/-- C6: for antecedent degrees `u, v` in `[0,1]`, an AND node evaluates to
`min u v` and an OR node to `max u v`, and both combinations stay inside
`[0,1]`. -/
theorem c6_and_is_min_or_is_max (avars : List Fvar) (ctx : Ctx)
    (e₁ e₂ : AExpr) (u v : ℚ)
    (hu0 : 0 ≤ u) (hu1 : u ≤ 1) (hv0 : 0 ≤ v) (hv1 : v ≤ 1)
    (h₁ : evalAnte avars ctx e₁ = u) (h₂ : evalAnte avars ctx e₂ = v) :
    evalAnte avars ctx (.and_ e₁ e₂) = min u v ∧
      evalAnte avars ctx (.or_ e₁ e₂) = max u v ∧
      0 ≤ min u v ∧ min u v ≤ 1 ∧ 0 ≤ max u v ∧ max u v ≤ 1 :=
  ⟨by simp [evalAnte, h₁, h₂], by simp [evalAnte, h₁, h₂],
    le_min hu0 hv0, min_le_of_left_le hu1, le_max_of_le_left hu0, max_le hu1 hv1⟩

/-- Witness for C6 on the microwave variables: at temperature 0 the
`normal` degree is `5/27`, at weight 350 the `light` degree is `1/4`, and
AND / OR of the two leaves give their min / max. -/
theorem c6_and_is_min_or_is_max_witness :
    evalAnte [temperatureVar, weightVar] [("temperature", 0), ("weight", 350)]
        (.leaf "temperature" "normal") = 5 / 27 ∧
      evalAnte [temperatureVar, weightVar] [("temperature", 0), ("weight", 350)]
        (.leaf "weight" "light") = 1 / 4 ∧
      evalAnte [temperatureVar, weightVar] [("temperature", 0), ("weight", 350)]
        (.and_ (.leaf "temperature" "normal") (.leaf "weight" "light")) =
          min (5 / 27) (1 / 4) ∧
      evalAnte [temperatureVar, weightVar] [("temperature", 0), ("weight", 350)]
        (.or_ (.leaf "temperature" "normal") (.leaf "weight" "light")) =
          max (5 / 27) (1 / 4) ∧
      (0 : ℚ) ≤ min (5 / 27) (1 / 4) ∧ min (5 / 27 : ℚ) (1 / 4) ≤ 1 ∧
      (0 : ℚ) ≤ max (5 / 27) (1 / 4) ∧ max (5 / 27 : ℚ) (1 / 4) ≤ 1 := by
  have h := c6_and_is_min_or_is_max [temperatureVar, weightVar]
    [("temperature", 0), ("weight", 350)]
    (.leaf "temperature" "normal") (.leaf "weight" "light") (5 / 27) (1 / 4)
    (by decide) (by decide) (by decide) (by decide) (by rfl) (by rfl)
  exact ⟨by rfl, by rfl, h.1, h.2.1, h.2.2.1, h.2.2.2.1, h.2.2.2.2.1, h.2.2.2.2.2⟩

/-- C7: with ordered control points, a triangular membership function is 0
outside `[a,c]` and 1 at its peak `b`, and a trapezoidal membership
function is 0 outside `[a,d]` and 1 on its whole flat top `[b,c]`. -/
theorem c7_support_and_peak (a b c d x : ℚ)
    (hab : a ≤ b) (hbc : b ≤ c) (hcd : c ≤ d) :
    ((x < a ∨ c < x) → trimf a b c x = 0) ∧
      trimf a b c b = 1 ∧
      ((x < a ∨ d < x) → trapmf a b c d x = 0) ∧
      (b ≤ x → x ≤ c → trapmf a b c d x = 1) := by
  refine ⟨?_, by simp [trimf], ?_, ?_⟩
  · intro h
    unfold trimf
    split_ifs with h1 h2 h3
    · rcases h with h | h
      · exact absurd hab (by rw [← h1]; exact not_le.2 h)
      · exact absurd hbc (by rw [← h1]; exact not_le.2 h)
    · rcases h with h | h
      · linarith [h2.1]
      · linarith [h2.2]
    · rcases h with h | h
      · linarith [h3.1]
      · linarith [h3.2]
    · rfl
  · intro h
    unfold trapmf
    split_ifs with h1 h2 h3 h4
    · rfl
    · rfl
    · rcases h with h | h
      · exact absurd h h1
      · exact absurd h h2
    · rcases h with h | h
      · exact absurd h h1
      · exact absurd h h2
    · rcases h with h | h
      · exact absurd h h1
      · exact absurd h h2
  · intro hbx hxc
    unfold trapmf
    split_ifs with h1 h2 h3 h4
    · exact absurd h1 (not_lt.2 (le_trans hab hbx))
    · exact absurd h2 (not_lt.2 (le_trans hxc hcd))
    · have hxb : x = b := le_antisymm h3 hbx
      subst hxb
      simp [trimf]
    · have hxco : x = c := le_antisymm hxc h4
      subst hxco
      simp [trimf]
    · rfl

/-- Witness for C7 at the `short` triangle (4,10,16) extended by `d = 20`,
evaluated at `x = 100`. -/
theorem c7_support_and_peak_witness :
    ((100 : ℚ) < 4 ∨ (16 : ℚ) < 100 → trimf 4 10 16 100 = 0) ∧
      trimf 4 10 16 10 = 1 ∧
      ((100 : ℚ) < 4 ∨ (20 : ℚ) < 100 → trapmf 4 10 16 20 100 = 0) ∧
      ((10 : ℚ) ≤ 100 → (100 : ℚ) ≤ 16 → trapmf 4 10 16 20 100 = 1) :=
  c7_support_and_peak 4 10 16 20 100 (by decide) (by decide) (by decide)

/-! ### Context agreement: inference only reads the referenced inputs -/

/-- Evaluating a leaf under known lookups. -/
theorem evalAnte_leaf (avars : List Fvar) (ctx : Ctx) (v t : String) (x : ℚ)
    (mf : MF) (hx : lookup ctx v = some x) (hm : findTerm avars v t = some mf) :
    evalAnte avars ctx (.leaf v t) = mf.eval x := by
  simp [evalAnte, hx, hm]

/-- Antecedent evaluation only depends on the lookups of the variables the
expression references. -/
theorem evalAnte_congr (avars : List Fvar) (ctx₁ ctx₂ : Ctx) :
    ∀ e : AExpr, (∀ v ∈ e.vars, lookup ctx₁ v = lookup ctx₂ v) →
      evalAnte avars ctx₁ e = evalAnte avars ctx₂ e
  | .leaf v t, h => by simp [evalAnte, h v (by simp [AExpr.vars])]
  | .and_ l r, h => by
    have hl := evalAnte_congr avars ctx₁ ctx₂ l
      (fun v hv => h v (by simp [AExpr.vars, List.mem_append, hv]))
    have hr := evalAnte_congr avars ctx₁ ctx₂ r
      (fun v hv => h v (by simp [AExpr.vars, List.mem_append, hv]))
    simp [evalAnte, hl, hr]
  | .or_ l r, h => by
    have hl := evalAnte_congr avars ctx₁ ctx₂ l
      (fun v hv => h v (by simp [AExpr.vars, List.mem_append, hv]))
    have hr := evalAnte_congr avars ctx₁ ctx₂ r
      (fun v hv => h v (by simp [AExpr.vars, List.mem_append, hv]))
    simp [evalAnte, hl, hr]

/-- `List.all` respects pointwise equal predicates. -/
theorem all_congr {α : Type} (l : List α) (p q : α → Bool)
    (h : ∀ x ∈ l, p x = q x) : l.all p = l.all q := by
  induction l with
  | nil => rfl
  | cons a t ih =>
    simp only [List.all_cons, h a (by simp)]
    rw [ih (fun x hx => h x (by simp [hx]))]

/-- Validation only depends on the lookups of the referenced variables. -/
theorem validate_congr (rb : RuleBase) (ctx₁ ctx₂ : Ctx)
    (h : ∀ r ∈ rb.rules, ∀ v ∈ r.ante.vars, lookup ctx₁ v = lookup ctx₂ v) :
    validate rb ctx₁ = validate rb ctx₂ :=
  all_congr _ _ _ (fun r hr =>
    all_congr _ _ _ (fun v hv => by rw [h r hr v hv]))

/-- The aggregated curve only depends on the lookups of the referenced
variables. -/
theorem aggCurve_congr (rb : RuleBase) (ctx₁ ctx₂ : Ctx)
    (h : ∀ r ∈ rb.rules, ∀ v ∈ r.ante.vars, lookup ctx₁ v = lookup ctx₂ v) :
    aggCurve rb ctx₁ = aggCurve rb ctx₂ := by
  unfold aggCurve
  congr 1
  refine List.map_congr_left ?_
  intro r hr
  unfold clipped
  refine List.map_congr_left ?_
  intro y _
  rw [fireStrength, fireStrength, evalAnte_congr _ _ _ _ (h r hr)]

/-- A whole inference call only depends on the lookups of the referenced
variables. -/
theorem infer_congr (rb : RuleBase) (ctx₁ ctx₂ : Ctx)
    (h : ∀ r ∈ rb.rules, ∀ v ∈ r.ante.vars, lookup ctx₁ v = lookup ctx₂ v) :
    infer rb ctx₁ = infer rb ctx₂ := by
  simp only [infer]
  rw [validate_congr rb ctx₁ ctx₂ h, aggCurve_congr rb ctx₁ ctx₂ h]

/-- Every variable referenced by a microwave rule is `temperature` or
`weight`. -/
theorem microwave_vars :
    ∀ r ∈ microwaveRB.rules, ∀ v ∈ r.ante.vars,
      v = "temperature" ∨ v = "weight" := by decide

/-- After `calculate_cooking_time` assigns its two inputs, looking up
`temperature` returns the fresh temperature, whatever was stored before. -/
theorem lookup_assigned_temperature (s : SimState) (temp w : ℚ) :
    lookup (setInput (setInput s "temperature" temp) "weight" w).inputs
      "temperature" = some temp := by
  simp [setInput, lookup]

/-- After `calculate_cooking_time` assigns its two inputs, looking up
`weight` returns the fresh weight, whatever was stored before. -/
theorem lookup_assigned_weight (s : SimState) (temp w : ℚ) :
    lookup (setInput (setInput s "temperature" temp) "weight" w).inputs
      "weight" = some w := by
  simp [setInput, lookup]

/-! ### Claim C9 -/

/-- C9: `calculate_cooking_time` is deterministic and stateless — two
calls with identical crisp inputs return the same result (value or typed
error) regardless of whatever inputs earlier calls left stored on the
simulation object. -/
theorem c9_inference_deterministic_stateless (s₁ s₂ : SimState) (temp w : ℚ) :
    (calculate_cooking_time s₁ temp w).map Prod.fst =
      (calculate_cooking_time s₂ temp w).map Prod.fst := by
  by_cases ht : ¬(-18 ≤ temp ∧ temp ≤ 70)
  · rw [calculate_cooking_time, calculate_cooking_time, if_pos ht, if_pos ht]
  · by_cases hw : ¬(0 ≤ w ∧ w ≤ 1500)
    · rw [calculate_cooking_time, calculate_cooking_time, if_neg ht, if_neg ht,
        if_pos hw, if_pos hw]
    · simp only [calculate_cooking_time, if_neg ht, if_neg hw]
      have hctx : infer microwaveRB
          (setInput (setInput s₁ "temperature" temp) "weight" w).inputs =
          infer microwaveRB
          (setInput (setInput s₂ "temperature" temp) "weight" w).inputs := by
        refine infer_congr _ _ _ ?_
        intro r hr v hv
        rcases microwave_vars r hr v hv with rfl | rfl
        · rw [lookup_assigned_temperature, lookup_assigned_temperature]
        · rw [lookup_assigned_weight, lookup_assigned_weight]
      rw [hctx]
      cases infer microwaveRB
          (setInput (setInput s₂ "temperature" temp) "weight" w).inputs with
      | ok out => rfl
      | error e => rfl

/-! ### In-range microwave inputs always fire a rule -/

/-- A `getD` entry at a valid index is a member of the list. -/
theorem getD_mem : ∀ (l : List ℚ) (i : ℕ), i < l.length → l.getD i 0 ∈ l
  | a :: _, 0, _ => List.mem_cons_self a _
  | _ :: t, i + 1, h => List.mem_cons_of_mem _ (getD_mem t i (by simpa using h))
  | [], i, h => absurd h (by simp)

/-- A list with a positive entry is not the all-zero curve. -/
theorem all_zero_false_of_pos (l : List ℚ) (i : ℕ) (hi : i < l.length)
    (hpos : 0 < l.getD i 0) : l.all (fun q => decide (q = 0)) = false :=
  List.all_eq_false.2 ⟨l.getD i 0, getD_mem l i hi,
    by simp only [decide_eq_true_eq]; exact ne_of_gt hpos⟩

/-- Value of a triangular membership on its rising edge. -/
theorem trimf_rise (a b c x : ℚ) (hax : a < x) (hxb : x < b) :
    trimf a b c x = (x - a) / (b - a) := by
  rw [trimf, if_neg (ne_of_lt hxb), if_pos ⟨hax, hxb⟩]

/-- Value of a triangular membership on its falling edge. -/
theorem trimf_fall (a b c x : ℚ) (hbx : b < x) (hxc : x < c) :
    trimf a b c x = (c - x) / (c - b) := by
  rw [trimf, if_neg (ne_of_gt hbx), if_neg (by rintro ⟨-, h⟩; linarith),
    if_pos ⟨hbx, hxc⟩]

/-- Value of a triangular membership at its peak. -/
theorem trimf_peak (a b c : ℚ) : trimf a b c b = 1 := by
  rw [trimf, if_pos rfl]

/-- Value of a trapezoidal membership on its rising edge. -/
theorem trapmf_rise (a b c d x : ℚ) (hbc : b ≤ c) (hcd : c ≤ d)
    (hax : a < x) (hxb : x < b) :
    trapmf a b c d x = (x - a) / (b - a) := by
  rw [trapmf, if_neg (by linarith), if_neg (by linarith),
    if_pos (le_of_lt hxb), trimf_rise a b b x hax hxb]

/-- Value of a trapezoidal membership on its falling edge. -/
theorem trapmf_fall (a b c d x : ℚ) (hab : a ≤ b) (hbc : b ≤ c)
    (hcx : c < x) (hxd : x < d) :
    trapmf a b c d x = (d - x) / (d - c) := by
  rw [trapmf, if_neg (by linarith), if_neg (by linarith),
    if_neg (by linarith), if_pos (le_of_lt hcx), trimf_fall c c d x hcx hxd]

/-- Value of a trapezoidal membership on its flat top. -/
theorem trapmf_flat (a b c d x : ℚ) (hab : a ≤ b) (hcd : c ≤ d)
    (hbx : b ≤ x) (hxc : x ≤ c) :
    trapmf a b c d x = 1 := by
  rw [trapmf, if_neg (by linarith), if_neg (by linarith)]
  by_cases hxb : x ≤ b
  · have hx : x = b := le_antisymm hxb hbx
    rw [if_pos hxb, hx, trimf_peak]
  · rw [if_neg hxb]
    by_cases hcx : c ≤ x
    · have hx : x = c := le_antisymm hxc hcx
      rw [if_pos hcx, hx, trimf_peak]
    · rw [if_neg hcx]

/-- The aggregated curve dominates each rule's clipped contribution. -/
theorem agg_ge_rule (rb : RuleBase) (ctx : Ctx) (r : Rule) (hr : r ∈ rb.rules)
    (i : ℕ) (hi : i < rb.consequent.samples.length) :
    min (fireStrength rb ctx r) (consEval rb r (rb.consequent.samples.getD i 0)) ≤
      (aggCurve rb ctx).getD i 0 := by
  rw [aggCurve_getD rb ctx i hi]
  exact mem_le_foldr_max (List.mem_map_of_mem _ hr)

/-- The `frozen` membership is positive on `[-18, 0)`. -/
theorem frozen_pos (temp : ℚ) (h1 : -18 ≤ temp) (h2 : temp < 0) :
    0 < trapmf (-18) (-18) (-10) 0 temp := by
  rcases le_or_lt temp (-10) with h | h
  · rw [trapmf_flat (-18) (-18) (-10) 0 temp (by norm_num) (by norm_num) h1 h]
    norm_num
  · rw [trapmf_fall (-18) (-18) (-10) 0 temp (by norm_num) (by norm_num) h h2]
    apply div_pos <;> linarith

/-- The `normal` temperature membership is positive on `[0, 30)`. -/
theorem normal_pos (temp : ℚ) (h1 : 0 ≤ temp) (h2 : temp < 30) :
    0 < trimf (-5) 22 30 temp := by
  rcases lt_trichotomy temp 22 with h | h | h
  · rw [trimf_rise (-5) 22 30 temp (by linarith) h]
    apply div_pos <;> linarith
  · rw [h, trimf_peak]
    norm_num
  · rw [trimf_fall (-5) 22 30 temp h h2]
    apply div_pos <;> linarith

/-- The `hot` membership is positive on `[30, 70]`. -/
theorem hot_pos (temp : ℚ) (h1 : 30 ≤ temp) (h2 : temp ≤ 70) :
    0 < trapmf 24 50 70 70 temp := by
  rcases lt_or_le temp 50 with h | h
  · rw [trapmf_rise 24 50 70 70 temp (by norm_num) (by norm_num) (by linarith) h]
    apply div_pos <;> linarith
  · rw [trapmf_flat 24 50 70 70 temp (by norm_num) (by norm_num) h h2]
    norm_num

/-- The `light` membership is positive on `[0, 300]`. -/
theorem light_pos (w : ℚ) (h1 : 0 ≤ w) (h2 : w ≤ 300) :
    0 < trapmf 0 0 200 400 w := by
  rcases le_or_lt w 200 with h | h
  · rw [trapmf_flat 0 0 200 400 w (by norm_num) (by norm_num) h1 h]
    norm_num
  · rw [trapmf_fall 0 0 200 400 w (by norm_num) (by norm_num) h (by linarith)]
    apply div_pos <;> linarith

/-- The `medium` membership is positive on `(300, 700)`. -/
theorem medium_pos (w : ℚ) (h1 : 300 < w) (h2 : w < 700) :
    0 < trimf 300 500 700 w := by
  rcases lt_trichotomy w 500 with h | h | h
  · rw [trimf_rise 300 500 700 w h1 h]
    apply div_pos <;> linarith
  · rw [h, trimf_peak]
    norm_num
  · rw [trimf_fall 300 500 700 w h h2]
    apply div_pos <;> linarith

/-- The `heavy` membership is positive on `[700, 1500]`. -/
theorem heavy_pos (w : ℚ) (h1 : 700 ≤ w) (h2 : w ≤ 1500) :
    0 < trapmf 600 1000 1500 1500 w := by
  rcases lt_or_le w 1000 with h | h
  · rw [trapmf_rise 600 1000 1500 1500 w (by norm_num) (by norm_num) (by linarith) h]
    apply div_pos <;> linarith
  · rw [trapmf_flat 600 1000 1500 1500 w (by norm_num) (by norm_num) h h2]
    norm_num

/-- Firing strength of the frozen rule under a known temperature input. -/
theorem fire_frozen (ctx : Ctx) (temp : ℚ)
    (hT : lookup ctx "temperature" = some temp) :
    fireStrength microwaveRB ctx
        ⟨.leaf "temperature" "frozen", "cooking_time", "very_long", 1⟩ =
      trapmf (-18) (-18) (-10) 0 temp := by
  show (1 : ℚ) * evalAnte microwaveRB.antecedents ctx
    (.leaf "temperature" "frozen") = _
  rw [one_mul,
    evalAnte_leaf _ _ _ _ temp (.trap (-18) (-18) (-10) 0) hT (by rfl)]
  rfl

/-- Firing strength of a temperature-AND-weight rule under known inputs. -/
theorem fire_and (ctx : Ctx) (x₁ x₂ : ℚ) (tt wt ct : String) (mf₁ mf₂ : MF)
    (hT : lookup ctx "temperature" = some x₁)
    (hW : lookup ctx "weight" = some x₂)
    (hm₁ : findTerm microwaveRB.antecedents "temperature" tt = some mf₁)
    (hm₂ : findTerm microwaveRB.antecedents "weight" wt = some mf₂) :
    fireStrength microwaveRB ctx
        ⟨.and_ (.leaf "temperature" tt) (.leaf "weight" wt),
          "cooking_time", ct, 1⟩ =
      min (mf₁.eval x₁) (mf₂.eval x₂) := by
  show (1 : ℚ) * evalAnte microwaveRB.antecedents ctx
    (.and_ (.leaf "temperature" tt) (.leaf "weight" wt)) = _
  rw [one_mul]
  show min (evalAnte microwaveRB.antecedents ctx (.leaf "temperature" tt))
    (evalAnte microwaveRB.antecedents ctx (.leaf "weight" wt)) = _
  rw [evalAnte_leaf _ _ _ _ x₁ mf₁ hT hm₁, evalAnte_leaf _ _ _ _ x₂ mf₂ hW hm₂]

/-- If some microwave rule fires positively and its consequent term peaks
at output sample `i`, the aggregated curve is not identically zero. -/
theorem agg_pos_at (ctx : Ctx) (r : Rule) (hr : r ∈ microwaveRB.rules) (i : ℕ)
    (hi : i < microwaveRB.consequent.samples.length)
    (hcons : consEval microwaveRB r (microwaveRB.consequent.samples.getD i 0) = 1)
    (hfire : 0 < fireStrength microwaveRB ctx r) :
    (aggCurve microwaveRB ctx).all (fun q => decide (q = 0)) = false := by
  have hle := agg_ge_rule microwaveRB ctx r hr i hi
  rw [hcons] at hle
  exact all_zero_false_of_pos _ i (by rw [length_aggCurve]; exact hi)
    (lt_of_lt_of_le (lt_min hfire one_pos) hle)

/-- For every in-range temperature and weight, the microwave inference
succeeds and returns the discrete centroid of the aggregated curve: for
temp < 0 the frozen rule fires, otherwise `normal` (temp < 30) or `hot`
covers the temperature and `light` / `medium` / `heavy` cover the weight,
so one of the six combination rules fires. -/
theorem microwave_infer_ok (ctx : Ctx) (temp w : ℚ)
    (hT : lookup ctx "temperature" = some temp)
    (hW : lookup ctx "weight" = some w)
    (h1 : -18 ≤ temp) (h2 : temp ≤ 70) (h3 : 0 ≤ w) (h4 : w ≤ 1500) :
    infer microwaveRB ctx =
      .ok (defuzz microwaveRB.consequent.samples (aggCurve microwaveRB ctx)) := by
  have hv : validate microwaveRB ctx = true := by
    simp [validate, microwaveRB, microwaveRules, AExpr.vars, hT, hW]
  have hz : (aggCurve microwaveRB ctx).all (fun q => decide (q = 0)) = false := by
    rcases lt_or_le temp 0 with htc | htc
    · refine agg_pos_at ctx
        ⟨.leaf "temperature" "frozen", "cooking_time", "very_long", 1⟩
        (by decide) 60 (by decide) (by rfl) ?_
      rw [fire_frozen ctx temp hT]
      exact frozen_pos temp h1 htc
    · rcases lt_or_le temp 30 with htn | hth
      · rcases le_or_lt w 300 with hwl | hw3
        · refine agg_pos_at ctx
            ⟨.and_ (.leaf "temperature" "normal") (.leaf "weight" "light"),
              "cooking_time", "short", 1⟩ (by decide) 10 (by decide) (by rfl) ?_
          rw [fire_and ctx temp w "normal" "light" "short"
            (.tri (-5) 22 30) (.trap 0 0 200 400) hT hW (by rfl) (by rfl)]
          exact lt_min (normal_pos temp htc htn) (light_pos w h3 hwl)
        · rcases lt_or_le w 700 with hwm | hwh
          · refine agg_pos_at ctx
              ⟨.and_ (.leaf "temperature" "normal") (.leaf "weight" "medium"),
                "cooking_time", "normal", 1⟩ (by decide) 20 (by decide) (by rfl) ?_
            rw [fire_and ctx temp w "normal" "medium" "normal"
              (.tri (-5) 22 30) (.tri 300 500 700) hT hW (by rfl) (by rfl)]
            exact lt_min (normal_pos temp htc htn) (medium_pos w hw3 hwm)
          · refine agg_pos_at ctx
              ⟨.and_ (.leaf "temperature" "normal") (.leaf "weight" "heavy"),
                "cooking_time", "long", 1⟩ (by decide) 40 (by decide) (by rfl) ?_
            rw [fire_and ctx temp w "normal" "heavy" "long"
              (.tri (-5) 22 30) (.trap 600 1000 1500 1500) hT hW (by rfl) (by rfl)]
            exact lt_min (normal_pos temp htc htn) (heavy_pos w hwh h4)
      · rcases le_or_lt w 300 with hwl | hw3
        · refine agg_pos_at ctx
            ⟨.and_ (.leaf "temperature" "hot") (.leaf "weight" "light"),
              "cooking_time", "very_short", 1⟩ (by decide) 5 (by decide) (by rfl) ?_
          rw [fire_and ctx temp w "hot" "light" "very_short"
            (.trap 24 50 70 70) (.trap 0 0 200 400) hT hW (by rfl) (by rfl)]
          exact lt_min (hot_pos temp hth h2) (light_pos w h3 hwl)
        · rcases lt_or_le w 700 with hwm | hwh
          · refine agg_pos_at ctx
              ⟨.and_ (.leaf "temperature" "hot") (.leaf "weight" "medium"),
                "cooking_time", "short", 1⟩ (by decide) 10 (by decide) (by rfl) ?_
            rw [fire_and ctx temp w "hot" "medium" "short"
              (.trap 24 50 70 70) (.tri 300 500 700) hT hW (by rfl) (by rfl)]
            exact lt_min (hot_pos temp hth h2) (medium_pos w hw3 hwm)
          · refine agg_pos_at ctx
              ⟨.and_ (.leaf "temperature" "hot") (.leaf "weight" "heavy"),
                "cooking_time", "normal", 1⟩ (by decide) 20 (by decide) (by rfl) ?_
            rw [fire_and ctx temp w "hot" "heavy" "normal"
              (.trap 24 50 70 70) (.trap 600 1000 1500 1500) hT hW (by rfl) (by rfl)]
            exact lt_min (hot_pos temp hth h2) (heavy_pos w hwh h4)
  simp [infer, hv, hz]

/-! ### Claim C10 -/

/-- C10: `calculate_cooking_time` raises ValueError exactly when an input
is out of range — the check precedes the inference and the stored inputs
never influence it — and for in-range inputs it returns the defuzzified
cooking time of the two fresh inputs, rounded to two decimal places. -/
theorem c10_value_error_iff_out_of_range (s : SimState) (temp w : ℚ) :
    ((¬(-18 ≤ temp ∧ temp ≤ 70) ∨ ¬(0 ≤ w ∧ w ≤ 1500)) →
        calculate_cooking_time s temp w = .error .valueError) ∧
      ((-18 ≤ temp ∧ temp ≤ 70) → (0 ≤ w ∧ w ≤ 1500) →
        (calculate_cooking_time s temp w).map Prod.fst =
          .ok (round2 (defuzz microwaveRB.consequent.samples
            (aggCurve microwaveRB [("temperature", temp), ("weight", w)])))) := by
  constructor
  · intro h
    rcases h with h | h
    · rw [calculate_cooking_time, if_pos h]
    · by_cases ht : ¬(-18 ≤ temp ∧ temp ≤ 70)
      · rw [calculate_cooking_time, if_pos ht]
      · rw [calculate_cooking_time, if_neg ht, if_pos h]
  · intro ht hw
    simp only [calculate_cooking_time, if_neg (not_not_intro ht),
      if_neg (not_not_intro hw)]
    have hok := microwave_infer_ok
      (setInput (setInput s "temperature" temp) "weight" w).inputs temp w
      (lookup_assigned_temperature s temp w) (lookup_assigned_weight s temp w)
      ht.1 ht.2 hw.1 hw.2
    rw [hok]
    have hagg : aggCurve microwaveRB
        (setInput (setInput s "temperature" temp) "weight" w).inputs =
        aggCurve microwaveRB [("temperature", temp), ("weight", w)] := by
      refine aggCurve_congr _ _ _ ?_
      intro r hr v hv
      rcases microwave_vars r hr v hv with rfl | rfl
      · rw [lookup_assigned_temperature]
        simp [lookup]
      · rw [lookup_assigned_weight]
        simp [lookup]
    rw [hagg]
    rfl

/-- Witness for C10: out-of-range temperature 200 raises ValueError, and
the in-range call (22, 500) returns the rounded centroid. -/
theorem c10_value_error_iff_out_of_range_witness :
    calculate_cooking_time ⟨[]⟩ 200 500 = .error .valueError ∧
      (calculate_cooking_time ⟨[]⟩ 22 500).map Prod.fst =
        .ok (round2 (defuzz microwaveRB.consequent.samples
          (aggCurve microwaveRB [("temperature", 22), ("weight", 500)]))) :=
  ⟨(c10_value_error_iff_out_of_range ⟨[]⟩ 200 500).1
      (Or.inl (by rintro ⟨-, h⟩; norm_num at h)),
    (c10_value_error_iff_out_of_range ⟨[]⟩ 22 500).2
      ⟨by norm_num, by norm_num⟩ ⟨by norm_num, by norm_num⟩⟩

/-! ### Claim C1 -/

/-- Counterexample to C1: at temperature `-18` and weight `500` the
microwave system outputs `53.67` minutes, not approximately `60.0`.  Only
the frozen rule fires (at strength 1), but its consequent trapezoid
(40,60,60,60) is flat only at the single point 60, so the centroid of the
clipped curve sits well below 60. -/
theorem c1_counterexample :
    (calculate_cooking_time ⟨[]⟩ (-18) 500).map Prod.fst = .ok (5367 / 100) ∧
      (5367 / 100 : ℚ) ≠ 60 :=
  ⟨by rfl, by norm_num⟩

/-- C1 as amended: at temperature `-18` and weight `500` only the frozen
rule fires, at full strength 1, and the inference yields the discrete
centroid `161/3` of the `very_long` trapezoid, which rounds to `53.67`
minutes. -/
theorem c1_frozen_rule_result :
    microwaveRB.rules.map
        (fireStrength microwaveRB [("temperature", -18), ("weight", 500)]) =
      [1, 0, 0, 0, 0, 0, 0] ∧
      infer microwaveRB [("temperature", -18), ("weight", 500)] = .ok (161 / 3) ∧
      (calculate_cooking_time ⟨[]⟩ (-18) 500).map Prod.fst = .ok (round2 (161 / 3)) ∧
      round2 (161 / 3) = 5367 / 100 :=
  ⟨by rfl, by rfl, by rfl, by rfl⟩

/-! ### Epsilon-delta continuity over ℚ, used for claim C8 -/

/-- Epsilon-delta continuity of `f` at `x` relative to the set `s` (with
`s = Set.univ` this is ordinary continuity at `x`). -/
def QContinuousWithin (f : ℚ → ℚ) (s : Set ℚ) (x : ℚ) : Prop :=
  ∀ ε : ℚ, 0 < ε → ∃ δ : ℚ, 0 < δ ∧ ∀ y ∈ s, |y - x| < δ → |f y - f x| < ε

/-- Continuity within a superset restricts to a subset. -/
theorem qcw_mono (f : ℚ → ℚ) (s t : Set ℚ) (x : ℚ) (hsub : s ⊆ t)
    (h : QContinuousWithin f t x) : QContinuousWithin f s x := by
  intro ε hε
  rcases h ε hε with ⟨δ, hδ, hy⟩
  exact ⟨δ, hδ, fun y hys hd => hy y (hsub hys) hd⟩

/-- Continuity within `Set.univ` restricts to any set. -/
theorem qcw_univ_restrict (f : ℚ → ℚ) (s : Set ℚ) (x : ℚ)
    (h : QContinuousWithin f Set.univ x) : QContinuousWithin f s x :=
  qcw_mono f s Set.univ x (fun _ _ => trivial) h

/-- Functions globally equal share continuity. -/
theorem qcw_of_eq (f g : ℚ → ℚ) (s : Set ℚ) (x : ℚ) (hfg : ∀ y, f y = g y)
    (hg : QContinuousWithin g s x) : QContinuousWithin f s x := by
  have : f = g := funext hfg
  rw [this]
  exact hg

/-- Functions equal on `s` (with `x ∈ s`) share continuity within `s`. -/
theorem qcw_congr (f g : ℚ → ℚ) (s : Set ℚ) (x : ℚ)
    (hfg : ∀ y ∈ s, f y = g y) (hx : x ∈ s)
    (hg : QContinuousWithin g s x) : QContinuousWithin f s x := by
  intro ε hε
  rcases hg ε hε with ⟨δ, hδ, hy⟩
  refine ⟨δ, hδ, fun y hys hd => ?_⟩
  rw [hfg y hys, hfg x hx]
  exact hy y hys hd

/-- Constant functions are continuous. -/
theorem qcw_const (c : ℚ) (s : Set ℚ) (x : ℚ) :
    QContinuousWithin (fun _ => c) s x := by
  intro ε hε
  exact ⟨1, one_pos, fun y _ _ => by simpa using hε⟩

/-- Affine functions are continuous. -/
theorem qcw_affine (p q : ℚ) (s : Set ℚ) (x : ℚ) :
    QContinuousWithin (fun y => p * y + q) s x := by
  intro ε hε
  have hp : (0 : ℚ) < |p| + 1 := by positivity
  refine ⟨ε / (|p| + 1), by positivity, fun y _ hd => ?_⟩
  have h1 : p * y + q - (p * x + q) = p * (y - x) := by ring
  rw [h1, abs_mul]
  calc |p| * |y - x| ≤ (|p| + 1) * |y - x| := by
        have := abs_nonneg (y - x)
        nlinarith [abs_nonneg p]
    _ < (|p| + 1) * (ε / (|p| + 1)) := by
        exact mul_lt_mul_of_pos_left hd hp
    _ = ε := mul_div_cancel₀ ε (ne_of_gt hp)

/-- The rising-edge map `y ↦ (y - a) / d` is continuous. -/
theorem qcw_rise_edge (a d : ℚ) (s : Set ℚ) (x : ℚ) :
    QContinuousWithin (fun y => (y - a) / d) s x := by
  refine qcw_of_eq _ (fun y => d⁻¹ * y + -(a * d⁻¹)) s x (fun y => ?_)
    (qcw_affine d⁻¹ (-(a * d⁻¹)) s x)
  rw [div_eq_mul_inv]
  ring

/-- The falling-edge map `y ↦ (c - y) / d` is continuous. -/
theorem qcw_fall_edge (c d : ℚ) (s : Set ℚ) (x : ℚ) :
    QContinuousWithin (fun y => (c - y) / d) s x := by
  refine qcw_of_eq _ (fun y => -d⁻¹ * y + c * d⁻¹) s x (fun y => ?_)
    (qcw_affine (-d⁻¹) (c * d⁻¹) s x)
  rw [div_eq_mul_inv]
  ring

/-- Pointwise minimum preserves continuity. -/
theorem qcw_min (f g : ℚ → ℚ) (s : Set ℚ) (x : ℚ)
    (hf : QContinuousWithin f s x) (hg : QContinuousWithin g s x) :
    QContinuousWithin (fun y => min (f y) (g y)) s x := by
  intro ε hε
  rcases hf ε hε with ⟨δ₁, hδ₁, hy₁⟩
  rcases hg ε hε with ⟨δ₂, hδ₂, hy₂⟩
  refine ⟨min δ₁ δ₂, lt_min hδ₁ hδ₂, fun y hys hd => ?_⟩
  refine lt_of_le_of_lt (abs_min_sub_min_le_max _ _ _ _) (max_lt ?_ ?_)
  · exact hy₁ y hys (lt_of_lt_of_le hd (min_le_left _ _))
  · exact hy₂ y hys (lt_of_lt_of_le hd (min_le_right _ _))

/-- Pointwise maximum preserves continuity. -/
theorem qcw_max (f g : ℚ → ℚ) (s : Set ℚ) (x : ℚ)
    (hf : QContinuousWithin f s x) (hg : QContinuousWithin g s x) :
    QContinuousWithin (fun y => max (f y) (g y)) s x := by
  intro ε hε
  rcases hf ε hε with ⟨δ₁, hδ₁, hy₁⟩
  rcases hg ε hε with ⟨δ₂, hδ₂, hy₂⟩
  refine ⟨min δ₁ δ₂, lt_min hδ₁ hδ₂, fun y hys hd => ?_⟩
  refine lt_of_le_of_lt (abs_max_sub_max_le_max _ _ _ _) (max_lt ?_ ?_)
  · exact hy₁ y hys (lt_of_lt_of_le hd (min_le_left _ _))
  · exact hy₂ y hys (lt_of_lt_of_le hd (min_le_right _ _))

/-- A non-degenerate triangle as a max/min of its two edge lines. -/
theorem trimf_eq_max_min (a b c : ℚ) (hab : a < b) (hbc : b < c) (x : ℚ) :
    trimf a b c x = max 0 (min ((x - a) / (b - a)) ((c - x) / (c - b))) := by
  have hba : (0 : ℚ) < b - a := by linarith
  have hcb : (0 : ℚ) < c - b := by linarith
  rw [trimf]
  split_ifs with h1 h2 h3
  · subst h1
    rw [div_self (ne_of_gt hba), div_self (ne_of_gt hcb)]
    norm_num
  · have hr0 : (0 : ℚ) ≤ (x - a) / (b - a) :=
      div_nonneg (by linarith [h2.1]) (le_of_lt hba)
    have hrf : (x - a) / (b - a) ≤ (c - x) / (c - b) := by
      rw [div_le_div_iff₀ hba hcb]
      nlinarith [mul_pos (show (0 : ℚ) < b - x by linarith [h2.2])
        (show (0 : ℚ) < c - a by linarith)]
    rw [min_eq_left hrf, max_eq_right hr0]
  · have hf0 : (0 : ℚ) ≤ (c - x) / (c - b) :=
      div_nonneg (by linarith [h3.2]) (le_of_lt hcb)
    have hfr : (c - x) / (c - b) ≤ (x - a) / (b - a) := by
      rw [div_le_div_iff₀ hcb hba]
      nlinarith [mul_pos (show (0 : ℚ) < x - b by linarith [h3.1])
        (show (0 : ℚ) < c - a by linarith)]
    rw [min_eq_right hfr, max_eq_right hf0]
  · have hcase : x ≤ a ∨ c ≤ x := by
      by_contra hc
      push_neg at hc
      rcases lt_trichotomy x b with h | h | h
      · exact h2 ⟨hc.1, h⟩
      · exact h1 h
      · exact h3 ⟨h, hc.2⟩
    rcases hcase with h | h
    · have hr : (x - a) / (b - a) ≤ 0 :=
        div_nonpos_iff.2 (Or.inr ⟨by linarith, by linarith⟩)
      rw [max_eq_left (le_trans (min_le_left _ _) hr)]
    · have hf : (c - x) / (c - b) ≤ 0 :=
        div_nonpos_iff.2 (Or.inr ⟨by linarith, by linarith⟩)
      rw [max_eq_left (le_trans (min_le_right _ _) hf)]

/-- A left-degenerate triangle (`a = b`), on `[a, ∞)`, as a max/min of a
constant and its falling edge. -/
theorem trimf_left_deg_eq (a c : ℚ) (hac : a < c) (x : ℚ) (hx : a ≤ x) :
    trimf a a c x = max 0 (min 1 ((c - x) / (c - a))) := by
  have hca : (0 : ℚ) < c - a := by linarith
  rw [trimf]
  split_ifs with h1 h2 h3
  · subst h1
    rw [div_self (ne_of_gt hca)]
    norm_num
  · linarith [h2.1, h2.2]
  · have hf1 : (c - x) / (c - a) ≤ 1 := (div_le_one hca).2 (by linarith [h3.1])
    have hf0 : (0 : ℚ) ≤ (c - x) / (c - a) :=
      div_nonneg (by linarith [h3.2]) (le_of_lt hca)
    rw [min_eq_right hf1, max_eq_right hf0]
  · have hcx : c ≤ x := by
      rcases lt_or_le x c with h | h
      · exact absurd ⟨lt_of_le_of_ne hx (Ne.symm h1), h⟩ h3
      · exact h
    have hf : (c - x) / (c - a) ≤ 0 :=
      div_nonpos_iff.2 (Or.inr ⟨by linarith, by linarith⟩)
    rw [min_eq_right (le_trans hf (by norm_num)), max_eq_left hf]

/-- A right-degenerate triangle (`b = c`), on `(-∞, c]`, as a max/min of
its rising edge and a constant. -/
theorem trimf_right_deg_eq (a c : ℚ) (hac : a < c) (x : ℚ) (hx : x ≤ c) :
    trimf a c c x = max 0 (min ((x - a) / (c - a)) 1) := by
  have hca : (0 : ℚ) < c - a := by linarith
  rw [trimf]
  split_ifs with h1 h2 h3
  · subst h1
    rw [div_self (ne_of_gt hca)]
    norm_num
  · have hr1 : (x - a) / (c - a) ≤ 1 := (div_le_one hca).2 (by linarith [h2.2])
    have hr0 : (0 : ℚ) ≤ (x - a) / (c - a) :=
      div_nonneg (by linarith [h2.1]) (le_of_lt hca)
    rw [min_eq_left hr1, max_eq_right hr0]
  · linarith [h3.1, h3.2]
  · have hxa : x ≤ a := by
      rcases le_or_lt x a with h | h
      · exact h
      · exact absurd ⟨h, lt_of_le_of_ne hx h1⟩ h2
    have hr : (x - a) / (c - a) ≤ 0 :=
      div_nonpos_iff.2 (Or.inr ⟨by linarith, by linarith⟩)
    rw [min_eq_left (le_trans hr (by norm_num)), max_eq_left hr]

/-- A left-degenerate trapezoid (`a = b`), on `[a, ∞)`, as a max/min of a
constant and its falling edge. -/
theorem trapmf_left_deg_eq (a c d : ℚ) (hac : a ≤ c) (hcd : c < d) (x : ℚ)
    (hx : a ≤ x) :
    trapmf a a c d x = max 0 (min 1 ((d - x) / (d - c))) := by
  have hdc : (0 : ℚ) < d - c := by linarith
  rw [trapmf]
  split_ifs with h1 h2 h3 h4
  · linarith
  · have hf : (d - x) / (d - c) ≤ 0 :=
      div_nonpos_iff.2 (Or.inr ⟨by linarith, by linarith⟩)
    rw [min_eq_right (le_trans hf (by norm_num)), max_eq_left hf]
  · have hxa : x = a := le_antisymm h3 hx
    subst hxa
    rw [trimf_peak]
    have hf1 : (1 : ℚ) ≤ (d - x) / (d - c) := (one_le_div hdc).2 (by linarith)
    rw [min_eq_left hf1, max_eq_right (by norm_num)]
  · rw [trimf]
    split_ifs with g1 g2 g3
    · subst g1
      rw [div_self (ne_of_gt hdc)]
      norm_num
    · linarith [g2.1, g2.2]
    · have hf1 : (d - x) / (d - c) ≤ 1 := (div_le_one hdc).2 (by linarith [g3.1])
      have hf0 : (0 : ℚ) ≤ (d - x) / (d - c) :=
        div_nonneg (by linarith [g3.2]) (le_of_lt hdc)
      rw [min_eq_right hf1, max_eq_right hf0]
    · have hdx : x = d := by
        have hcx : c < x := lt_of_le_of_ne h4 (Ne.symm g1)
        rcases lt_or_le x d with h | h
        · exact absurd ⟨hcx, h⟩ g3
        · exact le_antisymm (not_lt.1 h2) h
      subst hdx
      rw [sub_self, zero_div, min_eq_right (by norm_num), max_eq_left (le_refl 0)]
  · have hf1 : (1 : ℚ) ≤ (d - x) / (d - c) :=
      (one_le_div hdc).2 (by linarith [not_le.1 h4])
    rw [min_eq_left hf1, max_eq_right (by norm_num)]

/-- A right-degenerate trapezoid (`c = d`), on `(-∞, c]`, as a max/min of
its rising edge and a constant. -/
theorem trapmf_right_deg_eq (a b c : ℚ) (hab : a < b) (hbc : b ≤ c) (x : ℚ)
    (hx : x ≤ c) :
    trapmf a b c c x = max 0 (min ((x - a) / (b - a)) 1) := by
  have hba : (0 : ℚ) < b - a := by linarith
  rw [trapmf]
  split_ifs with h1 h2 h3 h4
  · have hr : (x - a) / (b - a) ≤ 0 :=
      div_nonpos_iff.2 (Or.inr ⟨by linarith, by linarith⟩)
    rw [min_eq_left (le_trans hr (by norm_num)), max_eq_left hr]
  · linarith
  · rw [trimf]
    split_ifs with g1 g2 g3
    · subst g1
      rw [div_self (ne_of_gt hba)]
      norm_num
    · have hr1 : (x - a) / (b - a) ≤ 1 := (div_le_one hba).2 (by linarith [g2.2])
      have hr0 : (0 : ℚ) ≤ (x - a) / (b - a) :=
        div_nonneg (by linarith [g2.1]) (le_of_lt hba)
      rw [min_eq_left hr1, max_eq_right hr0]
    · linarith [g3.1, g3.2]
    · have hxb : x < b := lt_of_le_of_ne h3 g1
      have hxa : x ≤ a := by
        rcases le_or_lt x a with h | h
        · exact h
        · exact absurd ⟨h, hxb⟩ g2
      have hax : a ≤ x := not_lt.1 h1
      have hxa2 : x = a := le_antisymm hxa hax
      subst hxa2
      rw [sub_self, zero_div, min_eq_left (by norm_num), max_eq_left (le_refl 0)]
  · have hxc : x = c := le_antisymm hx h4
    subst hxc
    rw [trimf_peak]
    have hr1 : (1 : ℚ) ≤ (x - a) / (b - a) := (one_le_div hba).2 (by linarith)
    rw [min_eq_right hr1, max_eq_right (by norm_num)]
  · have hr1 : (1 : ℚ) ≤ (x - a) / (b - a) :=
      (one_le_div hba).2 (by linarith [not_le.1 h3])
    rw [min_eq_right hr1, max_eq_right (by norm_num)]

/-- Non-degenerate triangles are continuous everywhere. -/
theorem qcw_trimf (a b c : ℚ) (hab : a < b) (hbc : b < c) (s : Set ℚ) (x : ℚ) :
    QContinuousWithin (trimf a b c) s x :=
  qcw_of_eq _ _ s x (trimf_eq_max_min a b c hab hbc)
    (qcw_max _ _ s x (qcw_const 0 s x)
      (qcw_min _ _ s x (qcw_rise_edge a (b - a) s x) (qcw_fall_edge c (c - b) s x)))

/-- Left-degenerate triangles are continuous within `[a, ∞)`. -/
theorem qcw_trimf_left (a c : ℚ) (hac : a < c) (x : ℚ) (hx : a ≤ x) :
    QContinuousWithin (trimf a a c) {y : ℚ | a ≤ y} x :=
  qcw_congr _ (fun y => max 0 (min 1 ((c - y) / (c - a)))) _ x
    (fun y hy => trimf_left_deg_eq a c hac y hy) hx
    (qcw_max _ _ _ x (qcw_const 0 _ x)
      (qcw_min _ _ _ x (qcw_const 1 _ x) (qcw_fall_edge c (c - a) _ x)))

/-- Right-degenerate triangles are continuous within `(-∞, c]`. -/
theorem qcw_trimf_right (a c : ℚ) (hac : a < c) (x : ℚ) (hx : x ≤ c) :
    QContinuousWithin (trimf a c c) {y : ℚ | y ≤ c} x :=
  qcw_congr _ (fun y => max 0 (min ((y - a) / (c - a)) 1)) _ x
    (fun y hy => trimf_right_deg_eq a c hac y hy) hx
    (qcw_max _ _ _ x (qcw_const 0 _ x)
      (qcw_min _ _ _ x (qcw_rise_edge a (c - a) _ x) (qcw_const 1 _ x)))

/-- Left-degenerate trapezoids are continuous within `[a, ∞)`. -/
theorem qcw_trapmf_left (a c d : ℚ) (hac : a ≤ c) (hcd : c < d) (x : ℚ)
    (hx : a ≤ x) :
    QContinuousWithin (trapmf a a c d) {y : ℚ | a ≤ y} x :=
  qcw_congr _ (fun y => max 0 (min 1 ((d - y) / (d - c)))) _ x
    (fun y hy => trapmf_left_deg_eq a c d hac hcd y hy) hx
    (qcw_max _ _ _ x (qcw_const 0 _ x)
      (qcw_min _ _ _ x (qcw_const 1 _ x) (qcw_fall_edge d (d - c) _ x)))

/-- Right-degenerate trapezoids are continuous within `(-∞, c]`. -/
theorem qcw_trapmf_right (a b c : ℚ) (hab : a < b) (hbc : b ≤ c) (x : ℚ)
    (hx : x ≤ c) :
    QContinuousWithin (trapmf a b c c) {y : ℚ | y ≤ c} x :=
  qcw_congr _ (fun y => max 0 (min ((y - a) / (b - a)) 1)) _ x
    (fun y hy => trapmf_right_deg_eq a b c hab hbc y hy) hx
    (qcw_max _ _ _ x (qcw_const 0 _ x)
      (qcw_min _ _ _ x (qcw_rise_edge a (b - a) _ x) (qcw_const 1 _ x)))

/-- One membership function of the repository together with the domain
bounds of the linguistic variable that owns it. -/
structure MFEntry where
  mf : MF
  lo : ℚ
  hi : ℚ
deriving DecidableEq

/-- All membership functions configured anywhere in the repository, each
with its variable's domain: src/microwave/oven.py (temperature, weight,
cooking_time), src/main.py (food_type, quantity, cooking_time) and
src/lab2/main.py (error, error_dot, cooling). -/
def systemMFs : List MFEntry :=
  [⟨.trap (-18) (-18) (-10) 0, -18, 70⟩,
   ⟨.tri (-5) 22 30, -18, 70⟩,
   ⟨.trap 24 50 70 70, -18, 70⟩,
   ⟨.trap 0 0 200 400, 0, 1500⟩,
   ⟨.tri 300 500 700, 0, 1500⟩,
   ⟨.trap 600 1000 1500 1500, 0, 1500⟩,
   ⟨.tri 0 5 10, 0, 60⟩,
   ⟨.tri 4 10 16, 0, 60⟩,
   ⟨.tri 12 20 30, 0, 60⟩,
   ⟨.tri 25 40 55, 0, 60⟩,
   ⟨.trap 40 60 60 60, 0, 60⟩,
   ⟨.tri 0 0 3, 0, 10⟩,
   ⟨.tri 2 5 8, 0, 10⟩,
   ⟨.tri 7 10 10, 0, 10⟩,
   ⟨.tri 0 0 3, 0, 10⟩,
   ⟨.tri 2 5 8, 0, 10⟩,
   ⟨.tri 7 10 10, 0, 10⟩,
   ⟨.tri 0 0 15, 0, 60⟩,
   ⟨.tri 10 20 30, 0, 60⟩,
   ⟨.tri 25 35 45, 0, 60⟩,
   ⟨.tri 40 50 60, 0, 60⟩,
   ⟨.tri 55 60 60, 0, 60⟩,
   ⟨.trap (-10) (-10) (-4) 0, -10, 10⟩,
   ⟨.tri (-2) 0 2, -10, 10⟩,
   ⟨.trap 0 4 10 10, -10, 10⟩,
   ⟨.trap (-15) (-15) (-10) 0, -15, 15⟩,
   ⟨.tri (-5) 0 5, -15, 15⟩,
   ⟨.trap 0 10 15 15, -15, 15⟩,
   ⟨.trap 0 0 (3 / 10) (1 / 2), 0, 1⟩,
   ⟨.trap (1 / 2) (7 / 10) 1 1, 0, 1⟩]

/-! ### Claim C8 -/

/-- Counterexample to C8: the food_type `raw` triangle (0,0,3) of
src/main.py, as a total function of its real argument, has a jump
discontinuity at the collapsed control point 0 — it evaluates to 1 at 0
but to 0 at every negative argument. -/
theorem c8_counterexample :
    (⟨.tri 0 0 3, 0, 10⟩ : MFEntry) ∈ systemMFs ∧
      ¬QContinuousWithin (MF.eval (.tri 0 0 3)) Set.univ 0 := by
  refine ⟨by decide, fun h => ?_⟩
  rcases h (1 / 2) (by norm_num) with ⟨δ, hδ, hy⟩
  have hdist : |(-(δ / 2)) - 0| < δ := by
    rw [sub_zero, abs_neg, abs_of_pos (by positivity)]
    linarith
  have hval := hy (-(δ / 2)) trivial hdist
  have hf : MF.eval (.tri 0 0 3) (-(δ / 2)) = 0 := by
    show trimf 0 0 3 (-(δ / 2)) = 0
    rw [trimf, if_neg (by intro hh; linarith [hh]),
      if_neg (by rintro ⟨hh, -⟩; linarith), if_neg (by rintro ⟨hh, -⟩; linarith)]
  have hp : MF.eval (.tri 0 0 3) 0 = 1 := trimf_peak 0 0 3
  rw [hf, hp] at hval
  norm_num at hval

/-- C8 as amended: every membership function configured by the repository
is total and piecewise-linear, and is continuous at every argument of its
variable's declared domain relative to that domain.  (As total functions
on all of ℚ, the degenerate shapes with coinciding control points jump
from 0 to 1 at the collapsed corner, but in every configuration that
corner lies on the boundary of the variable's domain.) -/
theorem c8_continuous_on_declared_domain :
    ∀ e ∈ systemMFs, ∀ x : ℚ, e.lo ≤ x → x ≤ e.hi →
      QContinuousWithin e.mf.eval {y : ℚ | e.lo ≤ y ∧ y ≤ e.hi} x := by
  intro e he x h1 h2
  fin_cases he
  · exact qcw_mono _ _ _ _ (fun y hy => hy.1)
      (qcw_trapmf_left (-18) (-10) 0 (by norm_num) (by norm_num) x h1)
  · exact qcw_trimf (-5) 22 30 (by norm_num) (by norm_num) _ x
  · exact qcw_mono _ _ _ _ (fun y hy => hy.2)
      (qcw_trapmf_right 24 50 70 (by norm_num) (by norm_num) x h2)
  · exact qcw_mono _ _ _ _ (fun y hy => hy.1)
      (qcw_trapmf_left 0 200 400 (by norm_num) (by norm_num) x h1)
  · exact qcw_trimf 300 500 700 (by norm_num) (by norm_num) _ x
  · exact qcw_mono _ _ _ _ (fun y hy => hy.2)
      (qcw_trapmf_right 600 1000 1500 (by norm_num) (by norm_num) x h2)
  · exact qcw_trimf 0 5 10 (by norm_num) (by norm_num) _ x
  · exact qcw_trimf 4 10 16 (by norm_num) (by norm_num) _ x
  · exact qcw_trimf 12 20 30 (by norm_num) (by norm_num) _ x
  · exact qcw_trimf 25 40 55 (by norm_num) (by norm_num) _ x
  · exact qcw_mono _ _ _ _ (fun y hy => hy.2)
      (qcw_trapmf_right 40 60 60 (by norm_num) (by norm_num) x h2)
  · exact qcw_mono _ _ _ _ (fun y hy => hy.1)
      (qcw_trimf_left 0 3 (by norm_num) x h1)
  · exact qcw_trimf 2 5 8 (by norm_num) (by norm_num) _ x
  · exact qcw_mono _ _ _ _ (fun y hy => hy.2)
      (qcw_trimf_right 7 10 (by norm_num) x h2)
  · exact qcw_mono _ _ _ _ (fun y hy => hy.1)
      (qcw_trimf_left 0 3 (by norm_num) x h1)
  · exact qcw_trimf 2 5 8 (by norm_num) (by norm_num) _ x
  · exact qcw_mono _ _ _ _ (fun y hy => hy.2)
      (qcw_trimf_right 7 10 (by norm_num) x h2)
  · exact qcw_mono _ _ _ _ (fun y hy => hy.1)
      (qcw_trimf_left 0 15 (by norm_num) x h1)
  · exact qcw_trimf 10 20 30 (by norm_num) (by norm_num) _ x
  · exact qcw_trimf 25 35 45 (by norm_num) (by norm_num) _ x
  · exact qcw_trimf 40 50 60 (by norm_num) (by norm_num) _ x
  · exact qcw_mono _ _ _ _ (fun y hy => hy.2)
      (qcw_trimf_right 55 60 (by norm_num) x h2)
  · exact qcw_mono _ _ _ _ (fun y hy => hy.1)
      (qcw_trapmf_left (-10) (-4) 0 (by norm_num) (by norm_num) x h1)
  · exact qcw_trimf (-2) 0 2 (by norm_num) (by norm_num) _ x
  · exact qcw_mono _ _ _ _ (fun y hy => hy.2)
      (qcw_trapmf_right 0 4 10 (by norm_num) (by norm_num) x h2)
  · exact qcw_mono _ _ _ _ (fun y hy => hy.1)
      (qcw_trapmf_left (-15) (-10) 0 (by norm_num) (by norm_num) x h1)
  · exact qcw_trimf (-5) 0 5 (by norm_num) (by norm_num) _ x
  · exact qcw_mono _ _ _ _ (fun y hy => hy.2)
      (qcw_trapmf_right 0 10 15 (by norm_num) (by norm_num) x h2)
  · exact qcw_mono _ _ _ _ (fun y hy => hy.1)
      (qcw_trapmf_left 0 (3 / 10) (1 / 2) (by norm_num) (by norm_num) x h1)
  · exact qcw_mono _ _ _ _ (fun y hy => hy.2)
      (qcw_trapmf_right (1 / 2) (7 / 10) 1 (by norm_num) (by norm_num) x h2)

/-- Witness for C8 at the frozen trapezoid of the microwave temperature
variable, at the domain boundary `x = -18`. -/
theorem c8_continuous_on_declared_domain_witness :
    (⟨.trap (-18) (-18) (-10) 0, -18, 70⟩ : MFEntry) ∈ systemMFs ∧
      (-18 : ℚ) ≤ -18 ∧ (-18 : ℚ) ≤ 70 ∧
      QContinuousWithin (MF.eval (.trap (-18) (-18) (-10) 0))
        {y : ℚ | -18 ≤ y ∧ y ≤ 70} (-18) :=
  ⟨by decide, by norm_num, by norm_num,
    c8_continuous_on_declared_domain ⟨.trap (-18) (-18) (-10) 0, -18, 70⟩
      (by decide) (-18) (by norm_num) (by norm_num)⟩

end Fuze
